import Mathlib

/-!
Verification of the FEM angular-correlation analysis notebook.

The repository is a single Jupyter notebook defining three Python functions
(`get_max_positions`, `determine_ellipse`, `ellipse_to_affine`), a
`thickness_filter` helper, and analysis cells that call pyXEM's
`get_variance` and ensemble-average the resulting variance curves.

This file shallowly embeds those functions and the statistical cells:
pixel intensities are modelled as exact rationals, the ellipse/affine
geometry as exact reals.  numpy's `argsort` is modelled as a stable
comparison sort (numpy's default introsort is unstable; the notebook's
docstring treats tie order as semantically insignificant, so we fix the
stable order), `ndarray.flatten` as a fresh copy (its documented
behaviour), and boolean-mask assignment as an elementwise update.
-/

namespace FEM

/-! ## get_max_positions -/

/-- Flat index comparison used to model `np.argsort` on the flattened
array: ascending by value, ties kept in index order (a stable sort). -/
def idxLe (v : List ℚ) (i j : ℕ) : Prop :=
  v.getD i 0 < v.getD j 0 ∨ (v.getD i 0 = v.getD j 0 ∧ i ≤ j)

instance (v : List ℚ) : DecidableRel (idxLe v) := fun i j => by
  unfold idxLe; infer_instance

instance (v : List ℚ) : IsTotal ℕ (idxLe v) := by
  constructor
  intro i j
  rcases lt_trichotomy (v.getD i 0) (v.getD j 0) with h | h | h
  · exact Or.inl (Or.inl h)
  · rcases Nat.le_total i j with hij | hij
    · exact Or.inl (Or.inr ⟨h, hij⟩)
    · exact Or.inr (Or.inr ⟨h.symm, hij⟩)
  · exact Or.inr (Or.inl h)

instance (v : List ℚ) : IsTrans ℕ (idxLe v) := by
  constructor
  intro i j k hij hjk
  rcases hij with h1 | ⟨h1, hi1⟩
  · rcases hjk with h2 | ⟨h2, _⟩
    · exact Or.inl (h1.trans h2)
    · exact Or.inl (h2 ▸ h1)
  · rcases hjk with h2 | ⟨h2, hi2⟩
    · exact Or.inl (h1 ▸ h2)
    · exact Or.inr ⟨h1.trans h2, hi1.trans hi2⟩

/-- `np.argsort(v)`: the indices `0, …, v.length - 1` sorted stably by value. -/
def argsort (v : List ℚ) : List ℕ :=
  (List.range v.length).insertionSort (idxLe v)

/-- `flattened_array[flattened_mask] = 0`: zero the entries at which the
boolean mask is true (the fancy-index assignment of the source). -/
def zeroMasked (m : List Bool) (v : List ℚ) : List ℚ :=
  List.zipWith (fun b x => if b then 0 else x) m v

/-- Row length `i_shape[1]` of the (row-major) 2D array. -/
def ncols (data : List (List ℚ)) : ℕ := data.headI.length

/-- The `get_max_positions` function of the notebook: flatten, zero the
masked pixels on the flattened copy, argsort, take the last `num_points`
indices (`indexes[-num_points:]`, which is the whole list when
`num_points` exceeds the length, as in Python), and recover (row, column)
pairs by `np.floor_divide` / `np.remainder` against the row length. -/
def get_max_positions (data : List (List ℚ)) (mask : Option (List (List Bool)))
    (num_points : ℕ) : List (ℕ × ℕ) :=
  let flattened_array := data.flatten
  let marr := match mask with
    | none => flattened_array
    | some m => zeroMasked m.flatten flattened_array
  let indexes := argsort marr
  (indexes.drop (marr.length - num_points)).map
    (fun i => (i / ncols data, i % ncols data))

/-- The masked flattened array that `get_max_positions` sorts. -/
def maskedFlat (data : List (List ℚ)) (mask : Option (List (List Bool))) : List ℚ :=
  match mask with
  | none => data.flatten
  | some m => zeroMasked m.flatten data.flatten

/-- The flat indices `get_max_positions` selects. -/
def topIdx (v : List ℚ) (num_points : ℕ) : List ℕ :=
  (argsort v).drop (v.length - num_points)

/-- Spec-side notion of a top-`k` index selection of `v`: distinct valid
indices, `min k v.length` of them, whose values dominate every value at an
unselected index. -/
def IsTopK (v : List ℚ) (k : ℕ) (S : List ℕ) : Prop :=
  S.Nodup ∧ (∀ i ∈ S, i < v.length) ∧ S.length = min k v.length ∧
    ∀ i ∈ S, ∀ j < v.length, j ∉ S → v.getD j 0 ≤ v.getD i 0

/-! ## ellipse_to_affine -/

/-- A 3×3 real matrix, the shape of `np.matmul` inputs in the source. -/
@[ext]
structure Mat3 where
  m00 : ℝ
  m01 : ℝ
  m02 : ℝ
  m10 : ℝ
  m11 : ℝ
  m12 : ℝ
  m20 : ℝ
  m21 : ℝ
  m22 : ℝ

/-- `np.matmul` on 3×3 matrices. -/
noncomputable def matmul (A B : Mat3) : Mat3 where
  m00 := A.m00 * B.m00 + A.m01 * B.m10 + A.m02 * B.m20
  m01 := A.m00 * B.m01 + A.m01 * B.m11 + A.m02 * B.m21
  m02 := A.m00 * B.m02 + A.m01 * B.m12 + A.m02 * B.m22
  m10 := A.m10 * B.m00 + A.m11 * B.m10 + A.m12 * B.m20
  m11 := A.m10 * B.m01 + A.m11 * B.m11 + A.m12 * B.m21
  m12 := A.m10 * B.m02 + A.m11 * B.m12 + A.m12 * B.m22
  m20 := A.m20 * B.m00 + A.m21 * B.m10 + A.m22 * B.m20
  m21 := A.m20 * B.m01 + A.m21 * B.m11 + A.m22 * B.m21
  m22 := A.m20 * B.m02 + A.m21 * B.m12 + A.m22 * B.m22

/-- `np.transpose` on 3×3 matrices. -/
noncomputable def transposeM (A : Mat3) : Mat3 where
  m00 := A.m00
  m01 := A.m10
  m02 := A.m20
  m10 := A.m01
  m11 := A.m11
  m12 := A.m21
  m20 := A.m02
  m21 := A.m12
  m22 := A.m22

/-- The identity 3×3 matrix. -/
noncomputable def idMat3 : Mat3 :=
  ⟨1, 0, 0, 0, 1, 0, 0, 0, 1⟩

/-- Applying a homogeneous 3×3 affine matrix to a 2D point. -/
noncomputable def applyAffine (M : Mat3) (p : ℝ × ℝ) : ℝ × ℝ :=
  (M.m00 * p.1 + M.m01 * p.2 + M.m02, M.m10 * p.1 + M.m11 * p.2 + M.m12)

/-- The matrix `Q` of `ellipse_to_affine`: rotation by `rot`. -/
noncomputable def qMat (rot : ℝ) : Mat3 :=
  ⟨Real.cos rot, -Real.sin rot, 0,
   Real.sin rot, Real.cos rot, 0,
   0, 0, 1⟩

/-- The matrix `S` of `ellipse_to_affine`: scale the second axis by
`major / minor`. -/
noncomputable def sMat (major minor : ℝ) : Mat3 :=
  ⟨1, 0, 0,
   0, major / minor, 0,
   0, 0, 1⟩

/-- The axis-normalization step at the top of `ellipse_to_affine`: when
`major < minor` the two axes are swapped and `rot` is advanced by `π/2`.
Returns the (major, minor, rot) triple the matrices are built from. -/
noncomputable def normalizeEllipse (major minor rot : ℝ) : ℝ × ℝ × ℝ :=
  if major < minor then (minor, major, rot + Real.pi / 2) else (major, minor, rot)

/-- The `ellipse_to_affine` function of the notebook:
`C = Q @ S @ Q.T` built from the normalized parameters. -/
noncomputable def ellipse_to_affine (major minor rot : ℝ) : Mat3 :=
  matmul
    (matmul (qMat (normalizeEllipse major minor rot).2.2)
      (sMat (normalizeEllipse major minor rot).1
        (normalizeEllipse major minor rot).2.1))
    (transposeM (qMat (normalizeEllipse major minor rot).2.2))

/-- A point of the fitted ellipse with centre `(xc, yc)`, axis `a` along
the rotation angle `theta` and axis `b` across it, at parameter `t`.
Modelled from the spec: the Ellipse Model (external skimage
`EllipseModel.predict_xy` parametrization) whose five parameters
`determine_ellipse` reads back as `params[0] .. params[4]`. -/
noncomputable def ellipsePoint (xc yc a b theta t : ℝ) : ℝ × ℝ :=
  (xc + a * Real.cos t * Real.cos theta - b * Real.sin t * Real.sin theta,
   yc + a * Real.cos t * Real.sin theta + b * Real.sin t * Real.cos theta)

/-! ## determine_ellipse -/

/-- Outcome of the external `EllipseModel.estimate` call: whether it
converged, and the five fitted parameters `(xc, yc, a, b, theta)` —
`params` stays `none` exactly when the estimate fails (skimage leaves the
fresh model's `params` attribute unset on failure). -/
structure FitOutcome where
  converge : Bool
  params : Option (ℝ × ℝ × ℝ × ℝ × ℝ)

/-- Observable result of a Python call: a value, a `return None`, or an
uncaught exception. -/
inductive PyResult (α : Type) where
  | ok : α → PyResult α
  | retNone : PyResult α
  | raised : PyResult α

/-- The `determine_ellipse` function of the notebook, given the outcome of
the external fit on the selected points.  The source sets `el = e` (the
`EllipseModel` object itself, which is never Python `None`) and branches on
`el is not None`; the `converge` flag returned by `e.estimate` is never
consulted.  In the taken branch it subscripts `el.params`, which raises a
`TypeError` when `params` is `None` (a failed fit); the
`print(...); return None` branch requires `el` to be `None`. -/
noncomputable def determine_ellipse (fit : FitOutcome) : PyResult ((ℝ × ℝ) × Mat3) :=
  let el : Option FitOutcome := some fit
  match el with
  | some m =>
    match m.params with
    | some p => PyResult.ok ((p.1, p.2.1),
        ellipse_to_affine p.2.2.2.1 p.2.2.1 p.2.2.2.2)
    | none => PyResult.raised
  | none => PyResult.retNone

/-! ## thickness_filter -/

/-- `np.linspace a b num`. -/
def linspace (a b : ℚ) (num : ℕ) : List ℚ :=
  (List.range num).map (fun i => a + (b - a) * i / (num - 1))

/-- The bin masks of `thickness_filter`: for each consecutive pair of bin
boundaries, the boolean mask
`np.logical_and(bins[i] < thickness, bins[i+1] > thickness)` over the
probe positions (here flattened to a list of thickness values). -/
def thickness_filter (thickness : List ℚ) (bins : List ℚ) : List (List Bool) :=
  (List.range (bins.length - 1)).map
    (fun i => thickness.map
      (fun t => decide (bins.getD i 0 < t) && decide (t < bins.getD (i + 1) 0)))

/-! ## Ensemble averaging of variance curves (the error / mean_val cell) -/

/-- Mean of a list of reals (`np.mean` over a 1D array). -/
noncomputable def listMean (xs : List ℝ) : ℝ := xs.sum / xs.length

/-- Population variance of a list of reals (`ddof = 0`, numpy's default). -/
noncomputable def popVar (xs : List ℝ) : ℝ :=
  (xs.map (fun x => (x - listMean xs) ^ 2)).sum / xs.length

/-- `np.std([v.data for v in var])`: with no `axis`, numpy stacks the `N`
curves and takes the standard deviation of the pooled `N × npt` values —
a single scalar, not an elementwise curve. -/
noncomputable def np_std (curves : List (List ℝ)) : ℝ :=
  Real.sqrt (popVar curves.flatten)

/-- The `error` of the ensemble-averaging cell:
`np.std([v.data for v in var]) / np.sqrt(10)` (the literal 10 is the
number of datasets loaded in that cell). -/
noncomputable def error_band (curves : List (List ℝ)) : ℝ :=
  np_std curves / Real.sqrt 10

/-- The `mean_val` of the ensemble-averaging cell, `np.mean(var).data`:
elementwise reduction of the curves by `+` followed by division by the
count. -/
noncomputable def np_mean (curves : List (List ℝ)) : List ℝ :=
  (match curves with
   | [] => []
   | c :: rest => rest.foldl (List.zipWith (· + ·)) c).map
    (fun x => x / curves.length)

/-! ## The Ω variance (Equation 1 of the notebook) -/

/-- Mean over probe positions `r` of a per-position quantity. -/
def meanR (R : ℕ) (f : Fin R → ℚ) : ℚ := (∑ r, f r) / R

/-- Population variance over probe positions `r`. -/
def varR (R : ℕ) (f : Fin R → ℚ) : ℚ :=
  meanR R (fun r => (f r - meanR R f) ^ 2)

/-- Modelled from the spec: the `get_variance(method="Omega")`
implementation lives in pyXEM, outside this repository; the notebook's
Equation 1 defines what it computes.  `V_Omega I gain k` is Equation 1
literally: `(⟨I²⟩_r - ⟨I⟩_r²) / ⟨I⟩_r² - G / ⟨I⟩_r` at the k-bin `k`,
where `I r k` is the azimuthally averaged intensity of probe position `r`. -/
def V_Omega (R K : ℕ) (I : Fin R → Fin K → ℚ) (gain : ℚ) (k : Fin K) : ℚ :=
  (meanR R (fun r => I r k ^ 2) - meanR R (fun r => I r k) ^ 2) /
      meanR R (fun r => I r k) ^ 2 -
    gain / meanR R (fun r => I r k)

/-! ## Heap model for the purity claim -/

/-- A small heap: the 2D intensity arrays, the 1D arrays (targets of
`flatten`), and the 2D boolean masks live at integer references. -/
structure PyState where
  arrs2 : List (List (List ℚ))
  arrs1 : List (List ℚ)
  masks2 : List (List (List Bool))

/-- `get_max_positions` as heap-passing code.  `data.flatten()` allocates
a fresh 1D buffer holding a copy (numpy's `flatten` always copies); the
fancy-index assignment `flattened_array[flattened_mask] = 0` then writes
to that fresh buffer.  Nothing else writes. -/
def get_max_positions_st (st : PyState) (dataRef : ℕ) (maskRef : Option ℕ)
    (num_points : ℕ) : List (ℕ × ℕ) × PyState :=
  let data := st.arrs2.getD dataRef []
  let fref := st.arrs1.length
  let st1 : PyState := { st with arrs1 := st.arrs1 ++ [data.flatten] }
  let st2 : PyState := match maskRef with
    | none => st1
    | some mr =>
      let newBuf := zeroMasked ((st1.masks2.getD mr []).flatten) (st1.arrs1.getD fref [])
      { st1 with arrs1 := st1.arrs1.set fref newBuf }
  let marr := st2.arrs1.getD fref []
  let indexes := argsort marr
  ((indexes.drop (marr.length - num_points)).map
      (fun i => (i / data.headI.length, i % data.headI.length)), st2)

/-- `determine_ellipse` as heap-passing code: it calls
`get_max_positions`, hands the selected points to the external estimator
`fit` (pure with respect to this heap), and the rest is arithmetic. -/
noncomputable def determine_ellipse_st (fit : List (ℕ × ℕ) → FitOutcome)
    (st : PyState) (dataRef : ℕ) (maskRef : Option ℕ) (num_points : ℕ) :
    PyResult ((ℝ × ℝ) × Mat3) × PyState :=
  let r := get_max_positions_st st dataRef maskRef num_points
  (determine_ellipse (fit r.1), r.2)

end FEM


namespace FEM

/-! ## Shared helper lemmas -/

theorem getD_zipWith {α β γ : Type} (f : α → β → γ) (u : List α) (w : List β)
    (i : ℕ) (da : α) (db : β) (dc : γ) (hu : i < u.length) (hw : i < w.length) :
    (List.zipWith f u w).getD i dc = f (u.getD i da) (w.getD i db) := by
  induction u generalizing w i with
  | nil => simp at hu
  | cons x xs ih =>
    cases w with
    | nil => simp at hw
    | cons y ys =>
      cases i with
      | zero => rfl
      | succ n =>
        simp only [List.zipWith_cons_cons, List.getD_cons_succ]
        exact ih ys n (Nat.lt_of_succ_lt_succ hu) (Nat.lt_of_succ_lt_succ hw)

/-! ## C1 -/

/-- C1: the claim says `determine_ellipse` returns the failure value
(None, with the not-converged report) exactly when the fit fails to
converge, and never raises.  The code tests `el is not None` where
`el = e` is the `EllipseModel` object itself — always non-None — so the
not-converged branch is unreachable: on a failed fit (converge = false,
params = None) the code subscripts `params[3]` on `None` and raises,
and no input ever produces the `return None` report. -/
theorem determine_ellipse_never_reports_nonconvergence :
    (∀ fit : FitOutcome, determine_ellipse fit ≠ PyResult.retNone) ∧
      determine_ellipse ⟨false, none⟩ = PyResult.raised := by
  constructor
  · intro fit h
    cases hp : fit.params <;> simp [determine_ellipse, hp] at h
  · rfl

/-! ## C4 -/

/-- C4: the normalization step of `ellipse_to_affine` (computing the
parameters the affine matrix is built from): the normalized semi-major is
at least the semi-minor; when the raw arguments have major < minor the
axes are swapped and the rotation used is exactly the raw rotation plus
π/2, and otherwise the parameters are used unchanged. -/
theorem ellipse_axes_normalization (major minor rot : ℝ) :
    (normalizeEllipse major minor rot).2.1 ≤ (normalizeEllipse major minor rot).1 ∧
      (major < minor →
        normalizeEllipse major minor rot = (minor, major, rot + Real.pi / 2)) ∧
      (minor ≤ major →
        normalizeEllipse major minor rot = (major, minor, rot)) := by
  by_cases h : major < minor
  · refine ⟨?_, fun _ => ?_, fun h2 => absurd h (not_lt.mpr h2)⟩ <;>
      simp [normalizeEllipse, h]
    exact le_of_lt h
  · refine ⟨?_, fun h2 => absurd h2 h, fun _ => ?_⟩ <;>
      simp [normalizeEllipse, h]
    exact not_lt.mp h

/-! ## C10 -/

/-- C10: a circular fit (equal axis arguments, any rotation) yields the
identity affine matrix: no corrective distortion is applied. -/
theorem circular_fit_gives_identity_affine (m rot : ℝ) (hm : m ≠ 0) :
    ellipse_to_affine m m rot = idMat3 := by
  unfold ellipse_to_affine normalizeEllipse
  rw [if_neg (lt_irrefl m)]
  ext <;>
    simp [matmul, sMat, qMat, transposeM, idMat3, div_self hm] <;>
    ring_nf <;>
    nlinarith [Real.sin_sq_add_cos_sq rot]

/-- Witness for C10 at a concrete circular fit. -/
theorem circular_fit_gives_identity_affine_witness :
    ellipse_to_affine 1 1 0 = idMat3 :=
  circular_fit_gives_identity_affine 1 0 (by norm_num)

/-! ## C8 -/

theorem varR_eq (R : ℕ) (f : Fin R → ℚ) :
    varR R f = meanR R (fun r => f r ^ 2) - meanR R f ^ 2 := by
  rcases Nat.eq_zero_or_pos R with h | h
  · subst h
    simp [varR, meanR]
  · have hR : (R : ℚ) ≠ 0 := Nat.cast_ne_zero.mpr h.ne'
    have expand : ∀ r : Fin R,
        (f r - meanR R f) ^ 2 =
          f r ^ 2 - 2 * meanR R f * f r + meanR R f ^ 2 := fun r => by ring
    unfold varR
    conv_lhs => rw [meanR]
    simp only [expand]
    rw [Finset.sum_add_distrib, Finset.sum_sub_distrib, ← Finset.mul_sum,
      Finset.sum_const, Finset.card_univ, Fintype.card_fin, nsmul_eq_mul]
    unfold meanR
    field_simp
    ring

/-- C8: for method "Omega", the notebook's Equation 1 at each k-bin equals
the claimed `Var_r(I_r) / Mean_r(I_r)^2 - gain / Mean_r(I_r)`: the Poisson
correction term `gain / Mean` is subtracted from the normalized
position-ensemble variance. -/
theorem V_Omega_variance_form (R K : ℕ) (I : Fin R → Fin K → ℚ) (gain : ℚ)
    (k : Fin K) :
    V_Omega R K I gain k =
      varR R (fun r => I r k) / meanR R (fun r => I r k) ^ 2 -
        gain / meanR R (fun r => I r k) := by
  rw [V_Omega, varR_eq]

/-! ## C3 -/

theorem linspace_1_3_3 : linspace 1 3 3 = [1, 2, 3] := by
  unfold linspace
  norm_num [List.range_succ]

/-- C3 counterexample: thickness map [1, 2] and bins
`linspace 1 3 3 = [1, 2, 3]` (the notebook's `np.linspace(min, max, 2+1)`
over a map whose minimum is 1 and maximum 3).  Probe position 0 has
thickness 1 — the attained minimum, inside the overall bin range — and
probe position 1 has thickness 2, an interior boundary; both belong to
zero sub-stacks rather than exactly one, because the code builds strictly
open intervals `bins[i] < t < bins[i+1]`. -/
theorem thickness_bins_drop_boundary_values :
    ((thickness_filter [1, 2] (linspace 1 3 3)).map
        (fun m => m.getD 0 false)).count true = 0 ∧
      ((thickness_filter [1, 2] (linspace 1 3 3)).map
        (fun m => m.getD 1 false)).count true = 0 := by
  rw [linspace_1_3_3]
  decide

theorem bins_getD_mono (bins : List ℚ) (hchain : bins.Chain' (· < ·))
    {a b : ℕ} (hab : a ≤ b) (hb : b < bins.length) :
    bins.getD a 0 ≤ bins.getD b 0 := by
  have hpair : bins.Pairwise (· < ·) := List.chain'_iff_pairwise.mp hchain
  have ha : a < bins.length := lt_of_le_of_lt hab hb
  rcases eq_or_lt_of_le hab with rfl | hlt
  · exact le_refl _
  · rw [List.getD_eq_getElem _ _ ha, List.getD_eq_getElem _ _ hb]
    exact le_of_lt (List.pairwise_iff_get.mp hpair ⟨a, ha⟩ ⟨b, hb⟩ hlt)

/-- C3 amended: the bins of `thickness_filter` are open intervals
`(bins[i], bins[i+1])`: for strictly increasing bin boundaries a probe
position belongs to the mask of bin `i` exactly when its thickness lies
strictly inside that interval, and it belongs to at most one bin —
thickness values equal to any boundary (including the attained overall
minimum and maximum) are assigned to no sub-stack. -/
theorem thickness_masks_open_disjoint (thickness bins : List ℚ) (p i j : ℕ)
    (hchain : bins.Chain' (· < ·)) (hp : p < thickness.length)
    (hi : i + 1 < bins.length) (hj : j + 1 < bins.length) :
    (((thickness_filter thickness bins).getD i []).getD p false = true ↔
        (bins.getD i 0 < thickness.getD p 0 ∧
          thickness.getD p 0 < bins.getD (i + 1) 0)) ∧
      (((thickness_filter thickness bins).getD i []).getD p false = true →
        ((thickness_filter thickness bins).getD j []).getD p false = true →
        i = j) := by
  have key : ∀ a : ℕ, a + 1 < bins.length →
      (((thickness_filter thickness bins).getD a []).getD p false = true ↔
        (bins.getD a 0 < thickness.getD p 0 ∧
          thickness.getD p 0 < bins.getD (a + 1) 0)) := by
    intro a ha
    have ha2 : a < bins.length - 1 := by omega
    have h1 : (thickness_filter thickness bins).getD a [] =
        thickness.map (fun t =>
          decide (bins.getD a 0 < t) && decide (t < bins.getD (a + 1) 0)) := by
      unfold thickness_filter
      rw [List.getD_eq_getElem _ _ (by simpa using ha2)]
      simp
    rw [h1, List.getD_eq_getElem _ _ (by simpa using hp),
      List.getD_eq_getElem _ _ hp]
    simp
  constructor
  · exact key i hi
  · intro hmi hmj
    have h1 := (key i hi).mp hmi
    have h2 := (key j hj).mp hmj
    by_contra hne
    rcases Nat.lt_or_ge i j with hij | hij
    · have : bins.getD (i + 1) 0 ≤ bins.getD j 0 :=
        bins_getD_mono bins hchain (by omega) (by omega)
      linarith [h1.2, h2.1]
    · have hji : j < i := by omega
      have : bins.getD (j + 1) 0 ≤ bins.getD i 0 :=
        bins_getD_mono bins hchain (by omega) (by omega)
      linarith [h1.1, h2.2]

/-- Witness for C3 amended at the concrete bins [0, 2, 4], thickness 1. -/
theorem thickness_masks_open_disjoint_witness :
    (((thickness_filter [1] [0, 2, 4]).getD 0 []).getD 0 false = true ↔
        (([0, 2, 4] : List ℚ).getD 0 0 < ([1] : List ℚ).getD 0 0 ∧
          ([1] : List ℚ).getD 0 0 < ([0, 2, 4] : List ℚ).getD (0 + 1) 0)) ∧
      ((((thickness_filter [1] [0, 2, 4]).getD 0 []).getD 0 false = true →
        ((thickness_filter [1] [0, 2, 4]).getD 0 []).getD 0 false = true →
        (0 : ℕ) = 0)) :=
  thickness_masks_open_disjoint [1] [0, 2, 4] 0 0 0
    (by simp [List.chain'_cons]; norm_num) (by decide) (by decide) (by decide)

end FEM


namespace FEM

/-! ## C6: argsort facts -/

theorem argsort_perm (v : List ℚ) : List.Perm (argsort v) (List.range v.length) :=
  List.perm_insertionSort _ _

theorem argsort_sorted (v : List ℚ) : List.Pairwise (idxLe v) (argsort v) :=
  List.sorted_insertionSort _ _

theorem argsort_length (v : List ℚ) : (argsort v).length = v.length := by
  rw [(argsort_perm v).length_eq, List.length_range]

theorem argsort_nodup (v : List ℚ) : (argsort v).Nodup :=
  ((argsort_perm v).nodup_iff).mpr (List.nodup_range _)

theorem mem_argsort (v : List ℚ) {i : ℕ} : i ∈ argsort v ↔ i < v.length := by
  rw [(argsort_perm v).mem_iff, List.mem_range]

/-- The selected indices of `get_max_positions` are a top-`num_points`
index set in the sense of `IsTopK`. -/
theorem topIdx_isTopK (v : List ℚ) (k : ℕ) : IsTopK v k (topIdx v k) := by
  refine ⟨(argsort_nodup v).sublist (List.drop_sublist _ _), ?_, ?_, ?_⟩
  · intro i hi
    exact (mem_argsort v).mp (List.mem_of_mem_drop hi)
  · rw [topIdx, List.length_drop, argsort_length]
    omega
  · intro i hi j hjlt hjS
    have hjmem : j ∈ argsort v := (mem_argsort v).mpr hjlt
    have hsplit := List.take_append_drop (v.length - k) (argsort v)
    rw [← hsplit] at hjmem
    rcases List.mem_append.mp hjmem with hjt | hjd
    · have hpair : List.Pairwise (idxLe v)
          (List.take (v.length - k) (argsort v) ++
            List.drop (v.length - k) (argsort v)) := by
        rw [hsplit]; exact argsort_sorted v
      have hrel := (List.pairwise_append.mp hpair).2.2 j hjt i hi
      rcases hrel with hlt | ⟨heq, _⟩
      · exact le_of_lt hlt
      · exact le_of_eq heq
    · exact absurd hjd hjS

/-- C6: `get_max_positions` returns exactly the image under
`i ↦ (i / row_length, i mod row_length)` of a top-`num_points` index set
of the flattened array with masked entries zeroed: the selected indices
are distinct, `num_points` many (capped at the pixel count), and their
values dominate every unselected value. -/
theorem get_max_positions_selects_top_points (data : List (List ℚ))
    (mask : Option (List (List Bool))) (num_points : ℕ) :
    get_max_positions data mask num_points =
      (topIdx (maskedFlat data mask) num_points).map
        (fun i => (i / ncols data, i % ncols data)) ∧
      IsTopK (maskedFlat data mask) num_points
        (topIdx (maskedFlat data mask) num_points) := by
  constructor
  · cases mask <;> rfl
  · exact topIdx_isTopK _ _

end FEM


namespace FEM

/-! ## C7 -/

/-- C7 counterexample: image [[0, 0]] (non-negative, as the spec allows),
mask [[false, true]], num_points = 1 ≤ 1 = unmasked pixel count.  After
zeroing, the masked pixel ties with the unmasked zero pixel and the sort
places it last, so the selected coordinate (0, 1) is a masked position. -/
theorem masked_zero_pixel_selected :
    get_max_positions [[0, 0]] (some [[false, true]]) 1 = [(0, 1)] ∧
      (([[false, true]] : List (List Bool)).getD 0 []).getD 1 false = true ∧
      ([[false, true]] : List (List Bool)).flatten.count false = 1 := by
  decide

theorem countP_eq_length_filter_range (v : List ℚ) (p : ℚ → Bool) :
    v.countP p = ((List.range v.length).filter (fun j => p (v.getD j 0))).length := by
  induction v with
  | nil => rfl
  | cons x xs ih =>
    have hcomp : (List.map Nat.succ (List.range xs.length)).filter
          (fun j => p ((x :: xs).getD j 0)) =
        List.map Nat.succ ((List.range xs.length).filter
          (fun j => p (xs.getD j 0))) := by
      rw [List.filter_map]
      congr 1
    rw [List.countP_cons, List.length_cons, List.range_succ_eq_map,
      List.filter_cons, ih, List.getD_cons_zero, hcomp]
    by_cases hp : p x = true <;> simp [hp]

theorem countP_pos_eq (v : List ℚ) :
    v.countP (fun x => decide ((0 : ℚ) < x)) =
      ((List.range v.length).filter
        (fun j => decide ((0 : ℚ) < v.getD j 0))).length :=
  countP_eq_length_filter_range v _

theorem rect_flatten_length {α : Type} (rows : List (List α)) (c : ℕ)
    (h : ∀ r ∈ rows, r.length = c) : rows.flatten.length = rows.length * c := by
  induction rows with
  | nil => simp
  | cons r rs ih =>
    simp only [List.flatten_cons, List.length_append, List.length_cons]
    rw [h r (List.mem_cons_self r rs),
      ih (fun x hx => h x (List.mem_cons_of_mem r hx))]
    ring

theorem flatten_getD_rect {α : Type} (d : α) (rows : List (List α)) (c : ℕ)
    (hc : 0 < c) (hrect : ∀ r ∈ rows, r.length = c) (i : ℕ) :
    rows.flatten.getD i d = (rows.getD (i / c) []).getD (i % c) d := by
  induction rows generalizing i with
  | nil => simp [List.getD]
  | cons r rs ih =>
    have hr : r.length = c := hrect r (List.mem_cons_self r rs)
    by_cases hic : i < c
    · have hdiv : i / c = 0 := Nat.div_eq_of_lt hic
      have hmod : i % c = i := Nat.mod_eq_of_lt hic
      rw [List.flatten_cons, List.getD_append _ _ _ _ (by rw [hr]; exact hic),
        hdiv, hmod, List.getD_cons_zero]
    · push_neg at hic
      rw [List.flatten_cons, List.getD_append_right _ _ _ _ (by rw [hr]; exact hic),
        hr, Nat.div_eq_sub_div hc hic, Nat.mod_eq_sub_mod hic,
        List.getD_cons_succ]
      exact ih (fun x hx => hrect x (List.mem_cons_of_mem r hx)) (i - c)

/-- The (row, column) recovery `i ↦ (i / c, i % c)` is injective for every
row length `c`: for `c > 0` the pair determines `i = c * (i / c) + i % c`,
and for `c = 0` the remainder is `i` itself. -/
theorem divmod_pair_inj (c x y : ℕ) (h : (x / c, x % c) = (y / c, y % c)) :
    x = y := by
  have h1 : x / c = y / c := congrArg Prod.fst h
  have h2 : x % c = y % c := congrArg Prod.snd h
  rcases Nat.eq_zero_or_pos c with rfl | hc
  · simpa [Nat.mod_zero] using h2
  · have h3 : c * (x / c) + x % c = c * (y / c) + y % c := by rw [h1, h2]
    rw [Nat.div_add_mod, Nat.div_add_mod] at h3
    exact h3

/-- C7 amended: the returned coordinates are always distinct — for every
image, optional mask and num_points, with no side condition (the selected
flat indices are distinct and (div, mod) recovery is injective); and, for
a rectangular image with same-shape mask, the returned coordinates avoid
every masked position provided `num_points` does not exceed the number of
pixels that are strictly positive after masking (masked pixels are merely
zeroed, so when fewer than `num_points` unmasked pixels are positive, a
masked zero can tie its way into the selection — the counterexample — but
a positive unmasked pixel can never lose to a masked one). -/
theorem get_max_positions_unique_unmasked (data : List (List ℚ))
    (mask : List (List Bool)) (num_points c : ℕ)
    (hc : 0 < c) (hd : data ≠ [])
    (hrows : ∀ r ∈ data, r.length = c)
    (hmrows : ∀ r ∈ mask, r.length = c)
    (hlen : mask.length = data.length)
    (hpos : num_points ≤
      (maskedFlat data (some mask)).countP (fun x => decide ((0 : ℚ) < x))) :
    (∀ (data2 : List (List ℚ)) (mask2 : Option (List (List Bool))) (k : ℕ),
        (get_max_positions data2 mask2 k).Nodup) ∧
      ∀ pr ∈ get_max_positions data (some mask) num_points,
        (mask.getD pr.1 []).getD pr.2 false = false := by
  set v := maskedFlat data (some mask) with hv
  have hres : get_max_positions data (some mask) num_points =
      (topIdx v num_points).map (fun i => (i / ncols data, i % ncols data)) := rfl
  have hncols : ncols data = c := by
    obtain ⟨r, rs, rfl⟩ := List.exists_cons_of_ne_nil hd
    simpa [ncols] using hrows r (List.mem_cons_self r rs)
  obtain ⟨hnodup, hmemlt, hlenS, hdom⟩ := topIdx_isTopK v num_points
  have hdlen : data.flatten.length = data.length * c := rect_flatten_length data c hrows
  have hmlen : mask.flatten.length = mask.length * c := rect_flatten_length mask c hmrows
  have hvlen : v.length = data.length * c := by
    rw [hv]
    unfold maskedFlat zeroMasked
    rw [List.length_zipWith, hdlen, hmlen, hlen]
    exact min_self _
  constructor
  · intro data2 mask2 k
    have hres2 : get_max_positions data2 mask2 k =
        (topIdx (maskedFlat data2 mask2) k).map
          (fun i => (i / ncols data2, i % ncols data2)) := by
      cases mask2 <;> rfl
    rw [hres2]
    refine List.Nodup.map_on ?_ (topIdx_isTopK (maskedFlat data2 mask2) k).1
    intro x _ y _ hxy
    exact divmod_pair_inj (ncols data2) x y hxy
  · intro pr hpr
    rw [hres] at hpr
    obtain ⟨i, hiS, rfl⟩ := List.mem_map.mp hpr
    rw [hncols]
    have hin : i < v.length := hmemlt i hiS
    have himask : i < mask.flatten.length := by
      rw [hmlen, hlen]
      omega
    rw [← flatten_getD_rect false mask c hc hmrows i]
    by_contra hmt
    have hmt2 : mask.flatten.getD i false = true := by
      cases h : mask.flatten.getD i false
      · exact absurd h hmt
      · rfl
    have hvz : v.getD i 0 = 0 := by
      rw [hv]
      unfold maskedFlat zeroMasked
      rw [getD_zipWith _ _ _ i false 0 0 himask (by omega), hmt2]
      rfl
    set P := (List.range v.length).filter
      (fun j => decide ((0 : ℚ) < v.getD j 0)) with hP
    have hPlen : num_points ≤ P.length := by
      rw [hP, ← countP_pos_eq]
      exact hpos
    have hPn : P.length ≤ v.length := by
      calc P.length ≤ (List.range v.length).length := List.length_filter_le _ _
        _ = v.length := List.length_range _
    have hSlen : (topIdx v num_points).length = num_points := by
      rw [hlenS]
      omega
    have hPnodup : P.Nodup := (List.nodup_range _).filter _
    by_cases hPS : P ⊆ topIdx v num_points
    · have hsub : P.Subperm (topIdx v num_points) := hPnodup.subperm hPS
      have heq : List.Perm P (topIdx v num_points) :=
        hsub.perm_of_length_le (by rw [hSlen]; exact hPlen)
      have hiP : i ∈ P := (heq.mem_iff).mpr hiS
      have h0 : (0 : ℚ) < v.getD i 0 := by
        simpa using (List.mem_filter.mp hiP).2
      rw [hvz] at h0
      exact absurd h0 (lt_irrefl 0)
    · rw [List.subset_def] at hPS
      push_neg at hPS
      obtain ⟨j, hjP, hjS⟩ := hPS
      have hjfact := List.mem_filter.mp hjP
      have hjlt : j < v.length := List.mem_range.mp hjfact.1
      have hjpos : (0 : ℚ) < v.getD j 0 := by simpa using hjfact.2
      have hle := hdom i hiS j hjlt hjS
      rw [hvz] at hle
      linarith

/-- Witness for C7 amended at a concrete image with all-false mask. -/
theorem get_max_positions_unique_unmasked_witness :
    (∀ (data2 : List (List ℚ)) (mask2 : Option (List (List Bool))) (k : ℕ),
        (get_max_positions data2 mask2 k).Nodup) ∧
      ∀ pr ∈ get_max_positions [[5, 1], [0, 3]]
          (some [[false, false], [false, false]]) 2,
        (([[false, false], [false, false]] : List (List Bool)).getD pr.1 []).getD
          pr.2 false = false :=
  get_max_positions_unique_unmasked [[5, 1], [0, 3]]
    [[false, false], [false, false]] 2 2 (by norm_num) (by simp)
    (by decide) (by decide) (by decide) (by decide)

end FEM


namespace FEM

/-! ## C9 -/

/-- C9: `get_max_positions` and `determine_ellipse` do not mutate their
inputs.  In the heap model, the only write either performs is the
fancy-index zeroing, and it targets the buffer freshly allocated by
`data.flatten()` (numpy's `flatten` always copies): every 2D intensity
array and every mask in the heap is unchanged after both calls. -/
theorem get_max_positions_preserves_heap (st : PyState) (dataRef : ℕ)
    (maskRef : Option ℕ) (num_points : ℕ)
    (fit : List (ℕ × ℕ) → FitOutcome) :
    ((get_max_positions_st st dataRef maskRef num_points).2.arrs2 = st.arrs2 ∧
      (get_max_positions_st st dataRef maskRef num_points).2.masks2 = st.masks2) ∧
      ((determine_ellipse_st fit st dataRef maskRef num_points).2.arrs2 = st.arrs2 ∧
        (determine_ellipse_st fit st dataRef maskRef num_points).2.masks2 =
          st.masks2) := by
  cases maskRef <;> simp [get_max_positions_st, determine_ellipse_st]

/-! ## C2 -/

theorem sum_pos_of_mem {l : List ℝ} (hnn : ∀ x ∈ l, 0 ≤ x)
    {x : ℝ} (hx : x ∈ l) (hxp : 0 < x) : 0 < l.sum := by
  induction l with
  | nil => simp at hx
  | cons y ys ih =>
    rw [List.sum_cons]
    rcases List.mem_cons.mp hx with rfl | hx2
    · have : (0 : ℝ) ≤ ys.sum :=
        List.sum_nonneg (fun z hz => hnn z (List.mem_cons_of_mem _ hz))
      linarith
    · have hy : (0 : ℝ) ≤ y := hnn y (List.mem_cons_self y ys)
      have := ih (fun z hz => hnn z (List.mem_cons_of_mem _ hz)) hx2
      linarith

theorem popVar_pos {xs : List ℝ} {a b : ℝ} (ha : a ∈ xs) (hb : b ∈ xs)
    (hab : a ≠ b) : 0 < popVar xs := by
  have hlen : 0 < (xs.length : ℝ) := by
    have h1 : xs ≠ [] := List.ne_nil_of_mem ha
    exact_mod_cast List.length_pos.mpr h1
  have hm : a - listMean xs ≠ 0 ∨ b - listMean xs ≠ 0 := by
    by_contra h
    push_neg at h
    exact hab (by linarith [sub_eq_zero.mp h.1, sub_eq_zero.mp h.2])
  have hnn : ∀ y ∈ xs.map (fun x => (x - listMean xs) ^ 2), 0 ≤ y := by
    intro y hy
    obtain ⟨z, _, rfl⟩ := List.mem_map.mp hy
    positivity
  have hsum : 0 < (xs.map (fun x => (x - listMean xs) ^ 2)).sum := by
    rcases hm with h | h
    · exact sum_pos_of_mem hnn (List.mem_map.mpr ⟨a, ha, rfl⟩) (by positivity)
    · exact sum_pos_of_mem hnn (List.mem_map.mpr ⟨b, hb, rfl⟩) (by positivity)
  unfold popVar
  exact div_pos hsum hlen

theorem getD_map_lt {α β : Type} (f : α → β) (l : List α) (i : ℕ) (d : β)
    (d2 : α) (h : i < l.length) : (l.map f).getD i d = f (l.getD i d2) := by
  rw [List.getD_eq_getElem _ _ (by simpa using h), List.getElem_map,
    List.getD_eq_getElem _ _ h]

theorem foldl_zipWith_col (K j : ℕ) (hj : j < K) :
    ∀ (rest : List (List ℝ)) (init : List ℝ), init.length = K →
      (∀ l ∈ rest, l.length = K) →
      (rest.foldl (List.zipWith (· + ·)) init).length = K ∧
        (rest.foldl (List.zipWith (· + ·)) init).getD j 0 =
          init.getD j 0 + (rest.map (fun l => l.getD j 0)).sum := by
  intro rest
  induction rest with
  | nil =>
    intro init hinit _
    exact ⟨hinit, by simp⟩
  | cons y ys ih =>
    intro init hinit hrest
    have hy : y.length = K := hrest y (List.mem_cons_self y ys)
    have hzlen : (List.zipWith (· + ·) init y).length = K := by
      rw [List.length_zipWith, hinit, hy]
      exact min_self K
    have hrec := ih (List.zipWith (· + ·) init y) hzlen
      (fun l hl => hrest l (List.mem_cons_of_mem _ hl))
    refine ⟨hrec.1, ?_⟩
    rw [List.foldl_cons, hrec.2,
      getD_zipWith (· + ·) init y j 0 0 0 (by omega) (by omega),
      List.map_cons, List.sum_cons]
    ring

/-- C2 counterexample: for N = 1 input curve [0, 2], the claim says the
reported standard-error band is exactly zero at every bin; the code's
`error` is the pooled scalar `np.std` of all bin values divided by
`sqrt 10`, which here is `1 / sqrt 10 ≠ 0`. -/
theorem error_band_single_curve_nonzero : error_band [[0, 2]] ≠ 0 := by
  have h1 : ([[0, 2]] : List (List ℝ)).flatten = [0, 2] := by simp
  have hm : listMean [0, 2] = 1 := by
    unfold listMean
    norm_num
  have hv : popVar [0, 2] = 1 := by
    unfold popVar
    rw [hm]
    norm_num
  unfold error_band np_std
  rw [h1, hv, Real.sqrt_one]
  have h10 : 0 < Real.sqrt 10 := Real.sqrt_pos.mpr (by norm_num)
  exact (div_pos one_pos h10).ne'

/-- C2 amended: the combined estimate is the elementwise mean of the
curves, as claimed; but the reported uncertainty is a single scalar — the
population standard deviation of the pooled bin values of all curves,
divided by the hard-coded `sqrt 10` — applied uniformly at every bin, not
an elementwise sample standard deviation over curves divided by sqrt(N);
in particular for N = 1 it is nonzero whenever the curve is not constant. -/
theorem ensemble_band_pooled_scalar (xs : List ℝ) (a b : ℝ)
    (curves : List (List ℝ)) (K j : ℕ)
    (ha : a ∈ xs) (hb : b ∈ xs) (hab : a ≠ b)
    (hK : ∀ cu ∈ curves, cu.length = K) (hj : j < K) (hcn : curves ≠ []) :
    error_band [xs] = Real.sqrt (popVar xs) / Real.sqrt 10 ∧
      error_band [xs] ≠ 0 ∧
      (np_mean curves).getD j 0 =
        listMean (curves.map (fun cu => cu.getD j 0)) := by
  have h1 : ([xs] : List (List ℝ)).flatten = xs := by simp
  have heq : error_band [xs] = Real.sqrt (popVar xs) / Real.sqrt 10 := by
    unfold error_band np_std
    rw [h1]
  refine ⟨heq, ?_, ?_⟩
  · rw [heq]
    have hv := popVar_pos ha hb hab
    have hs : 0 < Real.sqrt (popVar xs) := Real.sqrt_pos.mpr hv
    have h10 : 0 < Real.sqrt 10 := Real.sqrt_pos.mpr (by norm_num)
    exact (div_pos hs h10).ne'
  · obtain ⟨c0, rest, rfl⟩ := List.exists_cons_of_ne_nil hcn
    have hc0 : c0.length = K := hK c0 (List.mem_cons_self c0 rest)
    have hfold := foldl_zipWith_col K j hj rest c0 hc0
      (fun l hl => hK l (List.mem_cons_of_mem _ hl))
    unfold np_mean listMean
    rw [getD_map_lt _ _ j 0 0 (by rw [hfold.1]; exact hj), hfold.2,
      List.map_cons, List.sum_cons]
    simp [List.length_cons, List.length_map]

/-- Witness for C2 amended at concrete curves. -/
theorem ensemble_band_pooled_scalar_witness :
    error_band [[0, 2]] = Real.sqrt (popVar [0, 2]) / Real.sqrt 10 ∧
      error_band [[0, 2]] ≠ 0 ∧
      (np_mean [[1, 3]]).getD 0 0 =
        listMean (([[1, 3]] : List (List ℝ)).map (fun cu => cu.getD 0 0)) :=
  ensemble_band_pooled_scalar [0, 2] 0 2 [[1, 3]] 2 0 (by simp) (by simp)
    (by norm_num) (by intro cu hcu; rw [List.mem_singleton.mp hcu]; rfl)
    (by norm_num) (by simp)

/-! ## C5 -/

theorem applyAffine_matmul (X Y : Mat3) (p : ℝ × ℝ) (h20 : Y.m20 = 0)
    (h21 : Y.m21 = 0) (h22 : Y.m22 = 1) :
    applyAffine (matmul X Y) p = applyAffine X (applyAffine Y p) := by
  unfold applyAffine matmul
  simp only [h20, h21, h22, Prod.mk.injEq]
  constructor <;> ring

theorem applyAffine_qMat (r : ℝ) (p : ℝ × ℝ) :
    applyAffine (qMat r) p =
      (Real.cos r * p.1 - Real.sin r * p.2,
        Real.sin r * p.1 + Real.cos r * p.2) := by
  unfold applyAffine qMat
  simp only [Prod.mk.injEq]
  constructor <;> ring

theorem applyAffine_qMatT (r m u : ℝ) :
    applyAffine (transposeM (qMat r)) (m * Real.cos u, m * Real.sin u) =
      (m * Real.cos (u - r), m * Real.sin (u - r)) := by
  unfold applyAffine transposeM qMat
  simp only [Prod.mk.injEq, Real.cos_sub, Real.sin_sub]
  constructor <;> ring

theorem applyAffine_sMat (a c x y : ℝ) :
    applyAffine (sMat a c) (x, y) = (x, a / c * y) := by
  unfold applyAffine sMat
  simp only [Prod.mk.injEq]
  constructor <;> ring

/-- C5 counterexample: the raw fit (a, b, theta) = (2, 1, 0) — semi-major
2 along the x axis, semi-minor 1 — yields, through `determine_ellipse`'s
call `ellipse_to_affine(params[3], params[2], params[4])`, the matrix
`ellipse_to_affine 1 2 0`.  Applying it to the ellipse point at t = 0
gives (4, 0), at squared distance 16 from the centre — not the squared
semi-minor length 1: the matrix sends the ellipse away from, not onto,
the minor circle (it is its inverse that circularizes). -/
theorem affine_on_ellipse_not_minor_radius :
    applyAffine (ellipse_to_affine 1 2 0) (ellipsePoint 0 0 2 1 0 0) = (4, 0) ∧
      ((4 : ℝ) ^ 2 + (0 : ℝ) ^ 2 ≠ 1 ^ 2) := by
  constructor
  · have hn : normalizeEllipse 1 2 0 = (2, 1, 0 + Real.pi / 2) := by
      unfold normalizeEllipse
      rw [if_pos (by norm_num : (1 : ℝ) < 2)]
    unfold ellipse_to_affine
    rw [hn]
    unfold applyAffine matmul transposeM qMat sMat ellipsePoint
    simp [Real.cos_pi_div_two, Real.sin_pi_div_two]
    norm_num
  · norm_num

/-- C5 amended: the Affine Correction Matrix maps the circle of the
minor-axis radius onto the fitted ellipse (equivalently, its inverse
takes ellipse points to constant radius min(a, b)): for the raw fit
(a, b, theta) and the matrix `ellipse_to_affine b a theta` built by
`determine_ellipse`, every point of the circle of radius min(a, b) is
sent to the ellipse point at parameter t. -/
theorem affine_maps_minor_circle_onto_ellipse (A B theta t : ℝ)
    (hA : 0 < A) (hB : 0 < B) :
    applyAffine (ellipse_to_affine B A theta)
        (min A B * Real.cos (t + theta), min A B * Real.sin (t + theta)) =
      ellipsePoint 0 0 A B theta t := by
  unfold ellipse_to_affine
  by_cases h : B < A
  · have hn : normalizeEllipse B A theta = (A, B, theta + Real.pi / 2) := by
      unfold normalizeEllipse
      rw [if_pos h]
    have hmin : min A B = B := min_eq_right h.le
    rw [hn, hmin]
    rw [applyAffine_matmul _ _ _ rfl rfl rfl,
      applyAffine_qMatT _ _ _,
      applyAffine_matmul _ _ _ rfl rfl rfl,
      applyAffine_sMat, applyAffine_qMat]
    unfold ellipsePoint
    simp only [Prod.mk.injEq, Real.cos_add, Real.sin_add, Real.cos_sub,
      Real.sin_sub, Real.cos_pi_div_two, Real.sin_pi_div_two]
    constructor
    · field_simp
      linear_combination
        (-(Real.sin theta) * B ^ 2 * Real.sin t +
            B * Real.cos t * Real.cos theta * A) *
          Real.sin_sq_add_cos_sq theta
    · field_simp
      linear_combination
        (Real.cos theta * B ^ 2 * Real.sin t +
            B * Real.cos t * Real.sin theta * A) *
          Real.sin_sq_add_cos_sq theta
  · have hn : normalizeEllipse B A theta = (B, A, theta) := by
      unfold normalizeEllipse
      rw [if_neg h]
    have hmin : min A B = A := min_eq_left (le_of_not_lt h)
    rw [hn, hmin]
    rw [applyAffine_matmul _ _ _ rfl rfl rfl,
      applyAffine_qMatT _ _ _,
      applyAffine_matmul _ _ _ rfl rfl rfl,
      applyAffine_sMat, applyAffine_qMat]
    unfold ellipsePoint
    simp only [Prod.mk.injEq, Real.cos_add, Real.sin_add, Real.cos_sub,
      Real.sin_sub]
    constructor
    · field_simp
      linear_combination
        (Real.cos theta * A ^ 2 * Real.cos t -
            A * Real.sin t * Real.sin theta * B) *
          Real.sin_sq_add_cos_sq theta
    · field_simp
      linear_combination
        (Real.sin theta * A ^ 2 * Real.cos t +
            A * Real.cos theta * Real.sin t * B) *
          Real.sin_sq_add_cos_sq theta

/-- Witness for C5 amended at the concrete fit (2, 1, 0). -/
theorem affine_maps_minor_circle_onto_ellipse_witness :
    applyAffine (ellipse_to_affine 1 2 0)
        (min 2 1 * Real.cos (0 + 0), min 2 1 * Real.sin (0 + 0)) =
      ellipsePoint 0 0 2 1 0 0 :=
  affine_maps_minor_circle_onto_ellipse 2 1 0 0 (by norm_num) (by norm_num)

end FEM
